import Mathlib

/-!
Verification of the patch parsing and application system in `patching.py`.

The Python code is shallowly embedded: strings are Lean `String`s manipulated
through their underlying character lists, Python `int`s are `Int`, Python
exceptions are an `Err` error type threaded through `Except`, and the three
injected backend callbacks (`read_fn`, `write_fn`, `delete_fn`) are modelled
as pure functions returning `Option` (with `none` standing for the raised
`FileNotFoundError` for reads and for a raised backend error for mutations).
Backend mutations are additionally recorded in an event trace so that
ordering claims about `write_fn` / `delete_fn` invocations can be stated.

The `while` loops of `Parser.parse` and `Parser.parse_update_file` do not
structurally terminate (the Python code can in fact loop forever on a crafted
patch, e.g. an update section whose body is the single line `***`), so those
loops take an explicit fuel parameter; exhausting the fuel yields the
distinguished error `Err.fuelOut`, which is distinct from every Python
exception.
-/

/-- Python `str` whitespace used by `str.strip()` / `str.rstrip()`
(ASCII whitespace; the exotic Unicode whitespace code points play no role in
the texts handled here). -/
def isPyWs (c : Char) : Bool :=
  c = ' ' ∨ c = '\t' ∨ c = '\n' ∨ c = '\r' ∨ c = '\x0b' ∨ c = '\x0c'

/-- Python `s.lstrip()`. -/
def pyLstrip (s : String) : String :=
  ⟨s.data.dropWhile isPyWs⟩

/-- Python `s.rstrip()`. -/
def pyRstrip (s : String) : String :=
  ⟨(s.data.reverse.dropWhile isPyWs).reverse⟩

/-- Python `s.strip()`. -/
def pyStrip (s : String) : String :=
  pyRstrip (pyLstrip s)

/-- Split a character list at `'\n'`; always returns at least one piece,
mirroring Python `str.split("\n")`. -/
def splitNlData : List Char → List (List Char)
  | [] => [[]]
  | c :: rest =>
    let r := splitNlData rest
    if c = '\n' then [] :: r
    else
      match r with
      | [] => [[c]]
      | h :: t => (c :: h) :: t

/-- Python `text.split("\n")`. -/
def splitNl (s : String) : List String :=
  (splitNlData s.data).map String.mk

/-- Python `"\n".join(xs)`. -/
def joinNl : List String → String
  | [] => ""
  | [x] => x
  | x :: y :: xs => x ++ "\n" ++ joinNl (y :: xs)

/-- Python `s.startswith(p)`. -/
def pyStartswith (s p : String) : Bool :=
  p.data.isPrefixOf s.data

/-- Python `s[n:]` for a non-negative character count `n`. -/
def dropChars (n : Nat) (s : String) : String :=
  ⟨s.data.drop n⟩

/-- Whether `sub` occurs as a contiguous sublist of `l`. -/
def dataContains (sub : List Char) : List Char → Bool
  | [] => sub.isPrefixOf []
  | c :: rest => sub.isPrefixOf (c :: rest) || dataContains sub rest

/-- Python `sub in s` (substring containment). -/
def strContains (s sub : String) : Bool :=
  dataContains sub.data s.data

/-- `n` consecutive integers starting at `lo`, in increasing order. -/
def intRangeAux (lo : Int) : Nat → List Int
  | 0 => []
  | n + 1 => lo :: intRangeAux (lo + 1) n

/-- The integers `[lo, hi)`, in increasing order: Python `range(lo, hi)`. -/
def intRange (lo hi : Int) : List Int :=
  intRangeAux lo (hi - lo).toNat

/-- Python `xs[i]` modelled totally: negative indices count from the end,
out-of-range access yields `""`.  In every run below the index is in range,
so the `IndexError` path of Python indexing is never exercised. -/
def pyIndexD (xs : List String) (i : Int) : String :=
  if i < 0 then xs.getD (xs.length - (-i).toNat) ""
  else xs.getD i.toNat ""

/-- Normalize a Python slice endpoint against a list of length `n`. -/
def pySliceNorm (n : Nat) (a : Int) : Nat :=
  if a < 0 then (max ((n : Int) + a) 0).toNat else (min a (n : Int)).toNat

/-- Python `xs[i:j]`. -/
def pySliceGet (xs : List String) (i j : Int) : List String :=
  (xs.take (pySliceNorm xs.length j)).drop (pySliceNorm xs.length i)

/-- Python `xs[i:]`. -/
def pySliceFrom (xs : List String) (i : Int) : List String :=
  xs.drop (pySliceNorm xs.length i)

/-- The number of `"\n"`-separated lines of a string (splitting on `"\n"`
always yields one more piece than there are separators). -/
def numLines (s : String) : Nat :=
  s.data.count '\n' + 1

/-- The `PUNCT_EQUIV` character fold from `patching.py`: Unicode punctuation
look-alikes are replaced by their ASCII representative, every other code
point passes through unchanged. -/
def punctFold (c : Char) : Char :=
  if c = '-' ∨ c = '‐' ∨ c = '‑' ∨ c = '‒' ∨ c = '–' ∨
      c = '—' ∨ c = '−' then '-'
  else if c = '"' ∨ c = '“' ∨ c = '”' ∨ c = '„' ∨
      c = '«' ∨ c = '»' then '"'
  else if c = '\'' ∨ c = '‘' ∨ c = '’' ∨ c = '‛' then '\''
  else if c = ' ' ∨ c = ' ' then ' '
  else c

/-- Per-character map over a string (Python `str.translate` with a
character-to-character table). -/
def mapChars (f : Char → Char) (s : String) : String :=
  ⟨s.data.map f⟩

/-- Modelled from the spec: `unicodedata.normalize("NFC", s)` is a Python
standard-library call whose tables live outside this repository.  It is
modelled as the identity on code points, which is exact on NFC-normal text
(in particular on all ASCII text exercised below); the idempotence claim is
proved parametrically in an arbitrary normalizer satisfying the
Unicode-guaranteed properties, see `canonWith` and the C7 theorem. -/
def nfcNormalize (s : String) : String := s

/-- `canon` from `patching.py`, parameterized by the NFC normalizer:
normalize, then fold punctuation look-alikes. -/
def canonWith (nfc : String → String) (s : String) : String :=
  mapChars punctFold (nfc s)

/-- `canon` from `patching.py`. -/
def canon (s : String) : String :=
  canonWith nfcNormalize s

/-- One scan pass of `find_context_core`: the first `i ∈ [start,
len(lines) - len(context)]` (increasing) whose slice, `f`-normalized
per line and canonicalized, equals the `f`-normalized canonicalized
context.  Pass 1 uses `f = id`, pass 2 `rstrip`, pass 3 `strip`. -/
def fcPass (lines context : List String) (start : Int)
    (f : String → String) : Option Int :=
  (intRange start ((lines.length : Int) - (context.length : Int) + 1)).find?
    (fun i =>
      canon (joinNl ((pySliceGet lines i (i + (context.length : Int))).map f)) =
        canon (joinNl (context.map f)))

/-- `find_context_core(lines, context, start)` from `patching.py`.
`start` is an `Int` because the EOF path of `find_context` passes
`len(lines) - len(context)`, which can be negative.  Each pass scans
`i ∈ range(start, len(lines))`, breaking as soon as `i + len(context) >
len(lines)`; the surviving candidates are exactly `start ≤ i ≤ len(lines) -
len(context)`.  Returns `(-1, 0)` when not found. -/
def find_context_core (lines context : List String) (start : Int) : Int × Nat :=
  if context = [] then (start, 0)
  else
    match fcPass lines context start id with
    | some i => (i, 0)
    | none =>
      match fcPass lines context start pyRstrip with
      | some i => (i, 1)
      | none =>
        match fcPass lines context start pyStrip with
        | some i => (i, 100)
        | none => (-1, 0)

/-- `find_context(lines, context, start, eof)` from `patching.py`. -/
def find_context (lines context : List String) (start : Int) (eof : Bool) :
    Int × Nat :=
  if eof then
    let r := find_context_core lines context
      ((lines.length : Int) - (context.length : Int))
    if r.1 ≠ -1 then r
    else
      let r2 := find_context_core lines context start
      (r2.1, r2.2 + 10000)
  else find_context_core lines context start

-- Basic facts about the helpers, shared by several claims below.

theorem intRangeAux_mem {lo i : Int} {n : Nat} (h : i ∈ intRangeAux lo n) :
    lo ≤ i ∧ i < lo + n := by
  induction n generalizing lo with
  | zero => simp [intRangeAux] at h
  | succ m ih =>
    rcases List.mem_cons.mp h with rfl | h'
    · omega
    · have := ih h'
      omega

theorem intRange_mem {lo hi i : Int} (h : i ∈ intRange lo hi) :
    lo ≤ i ∧ i < hi := by
  have := intRangeAux_mem h
  omega

theorem fcPass_mem {lines context : List String} {start i : Int}
    {f : String → String} (h : fcPass lines context start f = some i) :
    start ≤ i ∧ i + (context.length : Int) ≤ (lines.length : Int) := by
  have hm := List.mem_of_find?_eq_some h
  have := intRange_mem hm
  omega

theorem find_context_core_bounds {lines context : List String} {start i : Int}
    {f : Nat} (hL : start ≤ (lines.length : Int))
    (h : find_context_core lines context start = (i, f)) :
    i = -1 ∨ (start ≤ i ∧ i + (context.length : Int) ≤ (lines.length : Int)) := by
  unfold find_context_core at h
  by_cases hc : context = []
  · rw [if_pos hc] at h
    cases h
    right
    simp [hc]
    omega
  · rw [if_neg hc] at h
    rcases h1 : fcPass lines context start id with _ | j
    · rw [h1] at h
      rcases h2 : fcPass lines context start pyRstrip with _ | j2
      · rw [h2] at h
        rcases h3 : fcPass lines context start pyStrip with _ | j3
        · rw [h3] at h
          cases h
          left
          rfl
        · rw [h3] at h
          cases h
          exact Or.inr (fcPass_mem h3)
      · rw [h2] at h
        cases h
        exact Or.inr (fcPass_mem h2)
    · rw [h1] at h
      cases h
      exact Or.inr (fcPass_mem h1)

-- ## Data model (`ActionType`, `Chunk`, `PatchAction`, `FileChange`)

inductive ActionType
  | add
  | delete
  | update
  deriving DecidableEq

/-- A chunk of an update: `orig_index` is `Int` because the Python code
stores a plain `int` that is first a context-window offset and is then
rebased by the locator's result. -/
structure Chunk where
  orig_index : Int
  del_lines : List String
  ins_lines : List String
  deriving DecidableEq

structure PatchAction where
  type : ActionType
  new_file : Option String := none
  chunks : List Chunk := []
  move_path : Option String := none
  deriving DecidableEq

structure FileChange where
  type : ActionType
  old_content : Option String := none
  new_content : Option String := none
  move_path : Option String := none
  deriving DecidableEq

/-- Errors: `diff` is `DiffError`, `valueErr` the `ValueError` of
`get_updated_file`, `keyErr` a Python `KeyError`, `indexErr` a Python
`IndexError` from a bare list access, `backendFail` an exception raised by
an injected `write_fn`/`delete_fn` callback, and `fuelOut` marks loop-fuel
exhaustion (Python would still be looping). -/
inductive Err
  | diff (msg : String)
  | valueErr (msg : String)
  | keyErr (path : String)
  | indexErr
  | backendFail
  | fuelOut
  deriving DecidableEq

/-- A recorded backend mutation: each call of `write_fn` or `delete_fn`
appends one event, whether or not the callback succeeds. -/
inductive Ev
  | write (path content : String)
  | delete (path : String)
  deriving DecidableEq

/-- Python `dict` lookup on an insertion-ordered association list. -/
def lookupStr {α : Type} (xs : List (String × α)) (k : String) : Option α :=
  (xs.find? (fun p => p.1 = k)).map (fun p => p.2)

-- ## Header constants from `patching.py`

def PATCH_BEGIN : String := "*** Begin Patch\n"

def PATCH_SUFFIX : String := "\n*** End Patch"

def ADD_FILE_HEADER : String := "*** Add File: "

def DELETE_FILE_HEADER : String := "*** Delete File: "

def UPDATE_FILE_HEADER : String := "*** Update File: "

def MOVE_FILE_TO_HEADER : String := "*** Move File To: "

def END_OF_FILE_MARKER : String := "*** End of File"

-- ## Hunk scanner (`peek_next_section`)

inductive PMode
  | mkeep
  | madd
  | mdel
  deriving DecidableEq

/-- The `end_prefixes` list of `peek_next_section` (the second entry is
`PATCH_SUFFIX.strip()`). -/
def peekEndMarkers : List String :=
  ["@@", pyStrip PATCH_SUFFIX, UPDATE_FILE_HEADER, DELETE_FILE_HEADER,
    ADD_FILE_HEADER, END_OF_FILE_MARKER]

/-- The section-terminator test of `peek_next_section`:
`any(s.startswith(p.strip()) for p in end_prefixes) or s == "***"`. -/
def isPeekTerminator (s : String) : Bool :=
  peekEndMarkers.any (fun p => pyStartswith s (pyStrip p)) || s == "***"

/-- Flush the pending chunk, if any (`orig_index` is
`len(old) - len(del_lines)` at flush time). -/
def flushChunk (old delAcc insAcc : List String) (chunks : List Chunk) :
    List Chunk :=
  if insAcc ≠ [] ∨ delAcc ≠ [] then
    chunks ++ [⟨(old.length : Int) - (delAcc.length : Int), delAcc, insAcc⟩]
  else chunks

/-- End of the scan: flush the trailing chunk and consume a final
`*** End of File` terminator if that is the line the scan stopped on. -/
def peekFinish (old delAcc insAcc : List String) (chunks : List Chunk)
    (stopLine : Option String) (idx : Nat) :
    List String × List Chunk × Nat × Bool :=
  let chunks' := flushChunk old delAcc insAcc chunks
  if stopLine = some END_OF_FILE_MARKER then (old, chunks', idx + 1, true)
  else (old, chunks', idx, false)

/-- Mode classification of a hunk body line by its first byte. -/
def peekClassify (s : String) : PMode :=
  if pyStartswith s "+" then PMode.madd
  else if pyStartswith s "-" then PMode.mdel
  else PMode.mkeep

/-- Payload of a hunk body line: a missing leading space is tolerated by
prepending one, then the first character is dropped. -/
def peekPayload (s : String) : String :=
  dropChars 1
    (if pyStartswith s "+" ∨ pyStartswith s "-" ∨ pyStartswith s " " then s
     else " " ++ s)

/-- The scan loop of `peek_next_section`, one patch line per step.
`rest` is the unscanned suffix of the patch lines and `idx` its absolute
start index; `mode` is the previous line's mode (initially `"keep"`).  A
chunk is flushed exactly when the mode returns to keep after add/delete. -/
def peekLoop (rest : List String) (idx : Nat) (old delAcc insAcc : List String)
    (chunks : List Chunk) (mode : PMode) :
    Except Err (List String × List Chunk × Nat × Bool) :=
  match rest with
  | [] => .ok (peekFinish old delAcc insAcc chunks none idx)
  | s :: rest' =>
    if isPeekTerminator s then
      .ok (peekFinish old delAcc insAcc chunks (some s) idx)
    else if pyStartswith s "***" then
      .error (.diff ("Invalid Line: " ++ s))
    else
      match peekClassify s with
      | .mdel =>
        peekLoop rest' (idx + 1) (old ++ [peekPayload s])
          (delAcc ++ [peekPayload s]) insAcc chunks .mdel
      | .madd =>
        peekLoop rest' (idx + 1) old delAcc (insAcc ++ [peekPayload s])
          chunks .madd
      | .mkeep =>
        if mode ≠ PMode.mkeep then
          peekLoop rest' (idx + 1) (old ++ [peekPayload s]) [] []
            (flushChunk old delAcc insAcc chunks) .mkeep
        else
          peekLoop rest' (idx + 1) (old ++ [peekPayload s]) delAcc insAcc
            chunks .mkeep

/-- `peek_next_section(lines, initial_index)` from `patching.py`: returns
`(context, chunks, next_index, eof_flag)` or raises on a stray `***` line. -/
def peek_next_section (lines : List String) (initialIndex : Nat) :
    Except Err (List String × List Chunk × Nat × Bool) :=
  peekLoop (lines.drop initialIndex) initialIndex [] [] [] [] PMode.mkeep

-- ## Parser (`Parser.parse`, `parse_update_file`, `parse_add_file`)

/-- `Parser.is_done(prefixes)`: true when the cursor is past the end or the
current line starts with one of the stripped markers. -/
def isDoneAt (lines : List String) (idx : Nat) (markers : List String) : Bool :=
  if idx ≥ lines.length then true
  else markers.any (fun p => pyStartswith (lines.getD idx "") (pyStrip p))

/-- `Parser.read_str(prefix)`: raises when the cursor is past the end;
consumes the line and returns the suffix after the header when the line
starts with it (note: the cursor advances even when that suffix is empty);
otherwise leaves the cursor alone and returns `""`. -/
def read_str (lines : List String) (idx : Nat) (pre : String) :
    Except Err (String × Nat) :=
  if idx ≥ lines.length then
    .error (.diff ("Index: " ++ toString idx ++ " >= " ++ toString lines.length))
  else if pyStartswith (lines.getD idx "") pre then
    .ok (dropChars pre.data.length (lines.getD idx ""), idx + 1)
  else .ok ("", idx)

/-- The `@@ defline` scan of `parse_update_file`: look for the first line at
or after the cursor whose canonical form equals the defline's (exact pass,
then stripped pass adding 1 fuzz); on a hit the cursor moves one past the
match, on a miss cursor and fuzz are left unchanged and no error is raised. -/
def seekDefline (fileLines : List String) (index : Int) (defStr : String) :
    Int × Nat :=
  match (intRange index (fileLines.length : Int)).find?
      (fun i => canon (pyIndexD fileLines i) = canon defStr) with
  | some i => (i + 1, 0)
  | none =>
    match (intRange index (fileLines.length : Int)).find?
        (fun i => canon (pyStrip (pyIndexD fileLines i)) = canon (pyStrip defStr)) with
    | some i => (i + 1, 1)
    | none => (index, 0)

/-- The `end_prefixes` list of `parse_update_file` / `parse_add_file`. -/
def updEndMarkers : List String :=
  [PATCH_SUFFIX, UPDATE_FILE_HEADER, DELETE_FILE_HEADER, ADD_FILE_HEADER,
    END_OF_FILE_MARKER]

/-- Rebasing one scanned section onto the original file: locate the context
from cursor `fIdx` (`find_context`), raise `Invalid Context` on failure,
else rebase the section's chunks by the found index and advance the file
cursor past the context. -/
def extendWithSection (fileLines ctx : List String) (secChunks : List Chunk)
    (endIdx : Nat) (eof : Bool) (fIdx : Int) (fuzz : Nat)
    (chunks : List Chunk) : Except Err (Nat × Int × Nat × List Chunk) :=
  if (find_context fileLines ctx fIdx eof).1 = -1 then
    .error (.diff ((if eof then "Invalid EOF Context " else "Invalid Context ") ++
      toString fIdx ++ ":\n" ++ joinNl ctx))
  else
    .ok (endIdx, (find_context fileLines ctx fIdx eof).1 + (ctx.length : Int),
      fuzz + (find_context fileLines ctx fIdx eof).2,
      chunks ++ secChunks.map (fun c =>
        { c with orig_index := c.orig_index + (find_context fileLines ctx fIdx eof).1 }))

/-- The second half of one `parse_update_file` iteration: scan the hunk body
(`peek_next_section`), then `extendWithSection`. -/
def locateAndExtend (lines fileLines : List String) (pIdx : Nat) (fIdx : Int)
    (fuzz : Nat) (chunks : List Chunk) :
    Except Err (Nat × Int × Nat × List Chunk) := do
  let sec ← peek_next_section lines pIdx
  extendWithSection fileLines sec.1 sec.2.1 sec.2.2.1 sec.2.2.2 fIdx fuzz chunks

/-- The defline seek of one `parse_update_file` iteration (only a defline
with non-empty strip is looked up; a hit advances the file cursor and may
add fuzz, a miss leaves both unchanged), followed by `locateAndExtend`. -/
def locateAfterDefline (lines fileLines : List String) (defStr : String)
    (i2 : Nat) (fIdx : Int) (fuzz : Nat) (chunks : List Chunk) :
    Except Err (Nat × Int × Nat × List Chunk) :=
  if pyStrip defStr ≠ "" then
    locateAndExtend lines fileLines i2 (seekDefline fileLines fIdx defStr).1
      (fuzz + (seekDefline fileLines fIdx defStr).2) chunks
  else locateAndExtend lines fileLines i2 fIdx fuzz chunks

/-- One iteration of the `parse_update_file` loop: optional `@@ defline`
(or bare `@@` on a line of its own), the `Invalid Line` check (which fires
only when neither form of `@@` was read and the file cursor has moved), then
the defline seek and `locateAndExtend`. -/
def updateStep (lines fileLines : List String) (pIdx : Nat) (fIdx : Int)
    (fuzz : Nat) (chunks : List Chunk) :
    Except Err (Nat × Int × Nat × List Chunk) := do
  let r1 ← read_str lines pIdx "@@ "
  if r1.1 = "" ∧ r1.2 < lines.length ∧ lines.getD r1.2 "" = "@@" then
    locateAfterDefline lines fileLines r1.1 (r1.2 + 1) fIdx fuzz chunks
  else if r1.1 = "" ∧ fIdx ≠ 0 then
    .error (.diff ("Invalid Line:\n" ++ lines.getD r1.2 ""))
  else
    locateAfterDefline lines fileLines r1.1 r1.2 fIdx fuzz chunks

/-- The `while not self.is_done(end_prefixes)` loop of `parse_update_file`;
`fuel` bounds the number of iterations. -/
def parseUpdateLoop (fuel : Nat) (lines fileLines : List String) (pIdx : Nat)
    (fIdx : Int) (fuzz : Nat) (chunks : List Chunk) :
    Except Err (List Chunk × Nat × Nat) :=
  if isDoneAt lines pIdx updEndMarkers then .ok (chunks, fuzz, pIdx)
  else
    match fuel with
    | 0 => .error .fuelOut
    | fuel + 1 => do
      let (pIdx', fIdx', fuzz', chunks') ←
        updateStep lines fileLines pIdx fIdx fuzz chunks
      parseUpdateLoop fuel lines fileLines pIdx' fIdx' fuzz' chunks'

/-- `Parser.parse_update_file(text)`: returns the `Update` action plus the
updated global fuzz and patch cursor. -/
def parse_update_file (fuel : Nat) (lines fileLines : List String)
    (pIdx : Nat) (fuzz : Nat) : Except Err (PatchAction × Nat × Nat) := do
  let (chunks, fuzz', pIdx') ← parseUpdateLoop fuel lines fileLines pIdx 0 fuzz []
  .ok ({ type := ActionType.update, chunks := chunks }, fuzz', pIdx')

/-- The body-collection loop of `parse_add_file`. -/
def parseAddLoop (fuel : Nat) (lines : List String) (idx : Nat)
    (acc : List String) : Except Err (List String × Nat) :=
  if isDoneAt lines idx [PATCH_SUFFIX, UPDATE_FILE_HEADER, DELETE_FILE_HEADER,
      ADD_FILE_HEADER] then
    .ok (acc, idx)
  else
    match fuel with
    | 0 => .error .fuelOut
    | fuel + 1 => do
      let (s, i1) ← read_str lines idx ""
      if ¬ pyStartswith s "+" then
        .error (.diff ("Invalid Add File Line: " ++ s))
      else parseAddLoop fuel lines i1 (acc ++ [dropChars 1 s])

/-- `Parser.parse_add_file()`. -/
def parse_add_file (fuel : Nat) (lines : List String) (idx : Nat) :
    Except Err (PatchAction × Nat) := do
  let (ls, i2) ← parseAddLoop fuel lines idx []
  .ok ({ type := ActionType.add, new_file := some (joinNl ls) }, i2)

/-- The `while not self.is_done([PATCH_SUFFIX])` loop of `Parser.parse`,
including the final `Missing End Patch` check (whose `self.startswith` call
raises `IndexError` when the cursor already ran past the last line). -/
def parseLoop (fuel : Nat) (lines : List String)
    (files : List (String × String)) (idx : Nat)
    (actions : List (String × PatchAction)) (fuzz : Nat) :
    Except Err (List (String × PatchAction) × Nat × Nat) :=
  if isDoneAt lines idx [PATCH_SUFFIX] then
    if idx < lines.length then
      if pyStartswith (lines.getD idx "") (pyStrip PATCH_SUFFIX) then
        .ok (actions, fuzz, idx + 1)
      else .error (.diff "Missing End Patch")
    else .error .indexErr
  else
    match fuel with
    | 0 => .error .fuelOut
    | fuel + 1 => do
      let (updPath, i1) ← read_str lines idx UPDATE_FILE_HEADER
      if updPath ≠ "" then
        if lookupStr actions updPath ≠ none then
          .error (.diff ("Update File Error: Duplicate Path: " ++ updPath))
        else do
          let (moveTo, i2) ← read_str lines i1 MOVE_FILE_TO_HEADER
          match lookupStr files updPath with
          | none => .error (.diff ("Update File Error: Missing File: " ++ updPath))
          | some text => do
            let (action, fuzz', i3) ←
              parse_update_file fuel lines (splitNl text) i2 fuzz
            let action' :=
              if moveTo ≠ "" then { action with move_path := some moveTo }
              else action
            parseLoop fuel lines files i3 (actions ++ [(updPath, action')]) fuzz'
      else do
        let (delPath, i1d) ← read_str lines i1 DELETE_FILE_HEADER
        if delPath ≠ "" then
          if lookupStr actions delPath ≠ none then
            .error (.diff ("Delete File Error: Duplicate Path: " ++ delPath))
          else if lookupStr files delPath = none then
            .error (.diff ("Delete File Error: Missing File: " ++ delPath))
          else
            parseLoop fuel lines files i1d
              (actions ++ [(delPath, { type := ActionType.delete })]) fuzz
        else do
          let (addPath, i1a) ← read_str lines i1d ADD_FILE_HEADER
          if addPath ≠ "" then
            if lookupStr actions addPath ≠ none then
              .error (.diff ("Add File Error: Duplicate Path: " ++ addPath))
            else if lookupStr files addPath ≠ none then
              .error (.diff ("Add File Error: File already exists: " ++ addPath))
            else do
              let (action, i2a) ← parse_add_file fuel lines i1a
              parseLoop fuel lines files i2a (actions ++ [(addPath, action)]) fuzz
          else
            if i1a < lines.length then
              .error (.diff ("Unknown Line: " ++ lines.getD i1a ""))
            else .error .indexErr

/-- `text_to_patch(text, orig)` from `patching.py`. -/
def text_to_patch (fuel : Nat) (text : String)
    (orig : List (String × String)) :
    Except Err (List (String × PatchAction) × Nat) :=
  let lines := splitNl (pyStrip text)
  if lines.length < 2 ∨ ¬ pyStartswith (lines.getD 0 "") (pyStrip PATCH_BEGIN) ∨
      lines.getLastD "" ≠ pyStrip PATCH_SUFFIX then
    .error (.diff "Invalid patch format")
  else do
    let (actions, fuzz, _) ← parseLoop fuel lines orig 1 [] 0
    .ok (actions, fuzz)

-- ## File rewriter (`get_updated_file`)

/-- The chunk-application loop of `get_updated_file`: `origIndex` is the
walking cursor, `acc` the accumulated destination lines. -/
def getUpdatedGo (origLines : List String) (path : String) (origIndex : Int)
    (acc : List String) : List Chunk → Except Err (List String)
  | [] => .ok (acc ++ pySliceFrom origLines origIndex)
  | ch :: rest =>
    if (origLines.length : Int) < ch.orig_index then
      .error (.diff (path ++ ": chunk.orig_index " ++ toString ch.orig_index ++
        " > len(lines) " ++ toString origLines.length))
    else if origIndex > ch.orig_index then
      .error (.diff (path ++ ": orig_index " ++ toString origIndex ++
        " > chunk.orig_index " ++ toString ch.orig_index))
    else
      getUpdatedGo origLines path (ch.orig_index + (ch.del_lines.length : Int))
        (acc ++ pySliceGet origLines origIndex ch.orig_index ++ ch.ins_lines)
        rest

/-- `get_updated_file(text, action, path)` from `patching.py`. -/
def get_updated_file (text : String) (action : PatchAction) (path : String) :
    Except Err String :=
  if action.type ≠ ActionType.update then
    .error (.valueErr "Expected UPDATE action")
  else do
    let dest ← getUpdatedGo (splitNl text) path 0 [] action.chunks
    .ok (joinNl dest)

-- ## Planner (`patch_to_commit`)

/-- `patch_to_commit(patch, orig)` from `patching.py`, iterating the actions
in insertion order.  A path missing from `orig` is a Python `KeyError`. -/
def patch_to_commit (orig : List (String × String)) :
    List (String × PatchAction) → Except Err (List (String × FileChange))
  | [] => .ok []
  | (path, action) :: rest => do
    let change : FileChange ←
      match action.type with
      | ActionType.delete =>
        match lookupStr orig path with
        | none => .error (Err.keyErr path)
        | some old => .ok { type := ActionType.delete, old_content := some old }
      | ActionType.add =>
        .ok { type := ActionType.add, new_content := some (action.new_file.getD "") }
      | ActionType.update =>
        match lookupStr orig path with
        | none => .error (Err.keyErr path)
        | some old => do
          let newContent ← get_updated_file old action path
          .ok { type := ActionType.update,
                old_content := some old,
                new_content := some newContent,
                move_path :=
                  if action.move_path.getD "" = "" then none
                  else action.move_path }
    let rest' ← patch_to_commit orig rest
    .ok ((path, change) :: rest')

-- ## Driver helpers

/-- Append `p` unless already collected.  Python builds a `set` here and
returns `list(set)`, whose order is interpreter-dependent; first-seen order
is one admissible order, and nothing downstream depends on it. -/
def dedupAppend (acc : List String) (p : String) : List String :=
  if p ∈ acc then acc else acc ++ [p]

/-- `identify_files_needed(text)`: paths of `Update`/`Delete` headers. -/
def identify_files_needed (text : String) : List String :=
  (splitNl (pyStrip text)).foldl (fun acc line =>
    if pyStartswith line UPDATE_FILE_HEADER then
      dedupAppend acc (dropChars UPDATE_FILE_HEADER.data.length line)
    else if pyStartswith line DELETE_FILE_HEADER then
      dedupAppend acc (dropChars DELETE_FILE_HEADER.data.length line)
    else acc) []

/-- `identify_files_added(text)`: paths of `Add` headers. -/
def identify_files_added (text : String) : List String :=
  (splitNl (pyStrip text)).foldl (fun acc line =>
    if pyStartswith line ADD_FILE_HEADER then
      dedupAppend acc (dropChars ADD_FILE_HEADER.data.length line)
    else acc) []

/-- `load_files(paths, read_fn)`: a backend `FileNotFoundError` (modelled as
`none`) is rethrown as `DiffError: File not found`. -/
def load_files (readF : String → Option String) :
    List String → Except Err (List (String × String))
  | [] => .ok []
  | p :: rest =>
    match readF p with
    | none => .error (.diff ("File not found: " ++ p))
    | some t => do
      let r ← load_files readF rest
      .ok ((p, t) :: r)

/-- The add-target existence check of `apply_patch`: a successful read means
the file already exists (error); `FileNotFoundError` is the expected outcome. -/
def checkAddsAbsent (readF : String → Option String) :
    List String → Except Err Unit
  | [] => .ok ()
  | p :: rest =>
    match readF p with
    | some _ => .error (.diff ("Add File Error: File already exists: " ++ p))
    | none => checkAddsAbsent readF rest

-- ## Commit application (`apply_commit`)

/-- Apply one `FileChange`, returning the backend-call events it issues (in
order) and either the receipts or the first backend failure.  For an
`Update` whose `move_path` is set (Python truthiness: non-empty), the new
path is written first and the old path deleted only if the write succeeded. -/
def stepChange (writeF : String → String → Option String)
    (deleteF : String → Option String) (path : String) (change : FileChange) :
    List Ev × Except Err (List String) :=
  match change.type with
  | ActionType.delete =>
    match deleteF path with
    | none => ([Ev.delete path], .error .backendFail)
    | some r => ([Ev.delete path], .ok [r])
  | ActionType.add =>
    match writeF path (change.new_content.getD "") with
    | none => ([Ev.write path (change.new_content.getD "")], .error .backendFail)
    | some r => ([Ev.write path (change.new_content.getD "")], .ok [r])
  | ActionType.update =>
    if change.move_path.getD "" = "" then
      match writeF path (change.new_content.getD "") with
      | none => ([Ev.write path (change.new_content.getD "")], .error .backendFail)
      | some r => ([Ev.write path (change.new_content.getD "")], .ok [r])
    else
      match writeF (change.move_path.getD "") (change.new_content.getD "") with
      | none =>
        ([Ev.write (change.move_path.getD "") (change.new_content.getD "")],
          .error .backendFail)
      | some r1 =>
        match deleteF path with
        | none =>
          ([Ev.write (change.move_path.getD "") (change.new_content.getD ""),
            Ev.delete path], .error .backendFail)
        | some r2 =>
          ([Ev.write (change.move_path.getD "") (change.new_content.getD ""),
            Ev.delete path], .ok [r1, r2])

/-- The change loop of `apply_commit`: events accumulate across changes and
the loop stops at the first backend failure. -/
def applyCommitGo (writeF : String → String → Option String)
    (deleteF : String → Option String) :
    List (String × FileChange) → List Ev × Except Err (List String)
  | [] => ([], .ok [])
  | (p, ch) :: rest =>
    match stepChange writeF deleteF p ch with
    | (evs, .error e) => (evs, .error e)
    | (evs, .ok rs) =>
      ((evs ++ (applyCommitGo writeF deleteF rest).1),
        (applyCommitGo writeF deleteF rest).2.map (fun xs => rs ++ xs))

/-- `apply_commit(commit, write_fn, delete_fn)` from `patching.py`: the
receipts are joined with `"\n"`. -/
def apply_commit (changes : List (String × FileChange))
    (writeF : String → String → Option String)
    (deleteF : String → Option String) : List Ev × Except Err String :=
  ((applyCommitGo writeF deleteF changes).1,
    (applyCommitGo writeF deleteF changes).2.map joinNl)

-- ## Driver (`apply_patch`)

/-- `apply_patch(text, read_fn, write_fn, delete_fn)` from `patching.py`.
The result pairs the trace of backend mutations with the returned receipt
string (or the raised error). -/
def apply_patch (fuel : Nat) (patchText : String)
    (readF : String → Option String)
    (writeF : String → String → Option String)
    (deleteF : String → Option String) : List Ev × Except Err String :=
  if ¬ pyStartswith patchText PATCH_BEGIN then
    ([], .error (.diff "Patch must start with *** Begin Patch\\n"))
  else
    match load_files readF (identify_files_needed patchText) with
    | .error e => ([], .error e)
    | .ok orig =>
      match checkAddsAbsent readF (identify_files_added patchText) with
      | .error e => ([], .error e)
      | .ok _ =>
        match text_to_patch fuel patchText orig with
        | .error e => ([], .error e)
        | .ok (actions, _) =>
          match patch_to_commit orig actions with
          | .error e => ([], .error e)
          | .ok changes => apply_commit changes writeF deleteF

-- ## C5: EOF handling of the context locator

/-- C5: with `eof = true` and non-empty context, `find_context` first
searches with the start pinned to `len(lines) - len(context)`; if that
attempt returns `-1` it searches again from the caller's `start` and,
whatever that second attempt returns, adds `10000` to the returned fuzz. -/
theorem find_context_eof_pins_then_retries (lines context : List String)
    (start : Int) (hne : context ≠ []) :
    find_context lines context start true =
      (let pinned := find_context_core lines context
        ((lines.length : Int) - (context.length : Int))
      if pinned.1 ≠ -1 then pinned
      else
        let retry := find_context_core lines context start
        (retry.1, retry.2 + 10000)) := rfl

theorem find_context_eof_witness :
    (["b"] : List String) ≠ [] ∧
    find_context ["a"] ["b"] 0 true =
      (let pinned := find_context_core ["a"] ["b"]
        (((["a"] : List String).length : Int) - ((["b"] : List String).length : Int))
      if pinned.1 ≠ -1 then pinned
      else
        let retry := find_context_core ["a"] ["b"] 0
        (retry.1, retry.2 + 10000)) :=
  ⟨by decide, find_context_eof_pins_then_retries ["a"] ["b"] 0 (by decide)⟩

-- ## C7: idempotence of `canon`, preservation of line structure

theorem punctFold_cases (c : Char) :
    punctFold c = c ∨ punctFold c = '-' ∨ punctFold c = '"' ∨
      punctFold c = '\'' ∨ punctFold c = ' ' := by
  unfold punctFold
  split
  · right; left; rfl
  · split
    · right; right; left; rfl
    · split
      · right; right; right; left; rfl
      · split
        · right; right; right; right; rfl
        · left; rfl

theorem punctFold_idem (c : Char) : punctFold (punctFold c) = punctFold c := by
  rcases punctFold_cases c with h | h | h | h | h
  · rw [h]; exact h
  · rw [h]; decide
  · rw [h]; decide
  · rw [h]; decide
  · rw [h]; decide

theorem punctFold_newline_iff (c : Char) : punctFold c = '\n' ↔ c = '\n' := by
  constructor
  · intro h
    rcases punctFold_cases c with h2 | h2 | h2 | h2 | h2
    · rw [← h2]; exact h
    · rw [h2] at h; exact absurd h (by decide)
    · rw [h2] at h; exact absurd h (by decide)
    · rw [h2] at h; exact absurd h (by decide)
    · rw [h2] at h; exact absurd h (by decide)
  · intro h; rw [h]; decide

theorem mapChars_comp (f g : Char → Char) (s : String) :
    mapChars f (mapChars g s) = mapChars (fun c => f (g c)) s := by
  unfold mapChars
  congr 1
  rw [List.map_map]
  rfl

theorem mapChars_punctFold_idem (s : String) :
    mapChars punctFold (mapChars punctFold s) = mapChars punctFold s := by
  rw [mapChars_comp]
  unfold mapChars
  simp only [punctFold_idem]

theorem count_nl_map_punctFold :
    ∀ l : List Char, (l.map punctFold).count '\n' = l.count '\n' := by
  intro l
  induction l with
  | nil => rfl
  | cons c cs ih =>
    simp only [List.map_cons, List.count_cons, ih]
    congr 1
    by_cases h : c = '\n'
    · rw [h]; decide
    · have h2 : punctFold c ≠ '\n' := fun hc => h ((punctFold_newline_iff c).mp hc)
      simp [h, h2]

/-- C7: `canon` (NFC normalization followed by the punctuation fold) is
idempotent and preserves the number of `"\n"`-separated lines.  The NFC
normalizer is a standard-library call external to the repository, so it
enters as a parameter constrained by the properties the Unicode standard
guarantees: idempotence, commutation with the fold (whose domain and range
take no part in canonical composition), and preservation of `"\n"` (which
composes with nothing). -/
theorem canon_idem_and_lines (nfc : String → String) (s : String)
    (hidem : ∀ t, nfc (nfc t) = nfc t)
    (hcomm : ∀ t, nfc (mapChars punctFold t) = mapChars punctFold (nfc t))
    (hnl : ∀ t, (nfc t).data.count '\n' = t.data.count '\n') :
    canonWith nfc (canonWith nfc s) = canonWith nfc s ∧
      numLines (canonWith nfc s) = numLines s := by
  constructor
  · unfold canonWith
    rw [hcomm, hidem, mapChars_punctFold_idem]
  · unfold numLines canonWith
    congr 1
    unfold mapChars
    calc ((String.mk ((nfc s).data.map punctFold)).data.count '\n')
        = ((nfc s).data.map punctFold).count '\n' := rfl
      _ = (nfc s).data.count '\n' := count_nl_map_punctFold _
      _ = s.data.count '\n' := hnl s

theorem canon_idem_witness :
    canonWith id (canonWith id "a—b\nc") = canonWith id "a—b\nc" ∧
      numLines (canonWith id "a—b\nc") = numLines "a—b\nc" :=
  canon_idem_and_lines id "a—b\nc" (fun _ => rfl) (fun _ => rfl) (fun _ => rfl)

-- ## C1: the concrete Add patch against an empty backend

/-- The patch text of the claim. -/
def addPatchText : String :=
  "*** Begin Patch\n*** Add File: new_file.py\n+def hello():\n+    print(\"Hello, world!\")\n*** End Patch"

/-- The expected content of the added file. -/
def helloContent : String :=
  "def hello():\n    print(\"Hello, world!\")"

theorem apply_commit_single_add (p c : String)
    (writeF : String → String → Option String)
    (deleteF : String → Option String) (r : String) (hw : writeF p c = some r) :
    apply_commit [(p, { type := ActionType.add, new_content := some c })]
      writeF deleteF = ([Ev.write p c], .ok r) := by
  unfold apply_commit applyCommitGo stepChange
  simp [hw, joinNl, applyCommitGo, Except.map]

/-- C1: applying the Add patch of the claim against a backend whose read
raises `FileNotFoundError` for every path performs exactly one mutation: a
single `write_fn` call on `new_file.py` with the hello-world body, no
`delete_fn` call, and the returned receipt is that single write's receipt. -/
theorem apply_patch_add_writes_once (writeF : String → String → Option String)
    (deleteF : String → Option String) (r : String)
    (hw : writeF "new_file.py" helloContent = some r) :
    apply_patch 100 addPatchText (fun _ => none) writeF deleteF =
      ([Ev.write "new_file.py" helloContent], .ok r) := by
  have step : apply_patch 100 addPatchText (fun _ => none) writeF deleteF =
      apply_commit
        [("new_file.py", { type := ActionType.add, new_content := some helloContent })]
        writeF deleteF := rfl
  rw [step]
  exact apply_commit_single_add _ _ _ _ _ hw

theorem apply_patch_add_witness :
    apply_patch 100 addPatchText (fun _ => none)
      (fun p _ => some ("Wrote " ++ p)) (fun p => some ("Deleted " ++ p)) =
      ([Ev.write "new_file.py" helloContent], .ok "Wrote new_file.py") :=
  apply_patch_add_writes_once (fun p _ => some ("Wrote " ++ p))
    (fun p => some ("Deleted " ++ p)) "Wrote new_file.py" rfl

-- ## C2: a `DiffError` means no backend mutation was issued

theorem stepChange_error_backend {writeF : String → String → Option String}
    {deleteF : String → Option String} {p : String} {ch : FileChange} {e : Err}
    (h : (stepChange writeF deleteF p ch).2 = .error e) : e = .backendFail := by
  unfold stepChange at h
  rcases ch with ⟨ty, oc, nc, mp⟩
  cases ty
  · -- add
    simp only at h
    rcases hw : writeF p (nc.getD "") with _ | r <;> rw [hw] at h <;> simp at h
    exact h.symm
  · -- delete
    simp only at h
    rcases hd : deleteF p with _ | r <;> rw [hd] at h <;> simp at h
    exact h.symm
  · -- update
    simp only at h
    by_cases hmp : mp.getD "" = ""
    · rw [if_pos hmp] at h
      rcases hw : writeF p (nc.getD "") with _ | r <;> rw [hw] at h <;> simp at h
      exact h.symm
    · rw [if_neg hmp] at h
      rcases hw : writeF (mp.getD "") (nc.getD "") with _ | r1 <;> rw [hw] at h
      · simp at h; exact h.symm
      · rcases hd : deleteF p with _ | r2 <;> rw [hd] at h <;> simp at h
        exact h.symm

theorem applyCommitGo_error_backend
    (writeF : String → String → Option String)
    (deleteF : String → Option String) :
    ∀ (changes : List (String × FileChange)) (e : Err),
      (applyCommitGo writeF deleteF changes).2 = .error e → e = .backendFail := by
  intro changes
  induction changes with
  | nil => intro e h; simp [applyCommitGo] at h
  | cons pc rest ih =>
    intro e h
    obtain ⟨p, ch⟩ := pc
    unfold applyCommitGo at h
    rcases hs : stepChange writeF deleteF p ch with ⟨evs, res⟩
    rcases res with e2 | rs
    · rw [hs] at h
      simp at h
      rw [← h]
      exact stepChange_error_backend (by rw [hs])
    · rw [hs] at h
      simp only at h
      rcases hr : (applyCommitGo writeF deleteF rest).2 with e3 | v
      · rw [hr] at h
        simp [Except.map] at h
        rw [← h]
        exact ih e3 hr
      · rw [hr] at h
        simp [Except.map] at h

/-- C2: for every patch text and every backend, if `apply_patch` raises a
`DiffError` then `write_fn` and `delete_fn` were never invoked: every
`DiffError` arises during snapshot loading, the add-existence check,
parsing, or commit construction, all of which complete before the first
backend mutation, and `apply_commit` itself only surfaces backend errors. -/
theorem apply_patch_diff_no_mutations (fuel : Nat) (text : String)
    (readF : String → Option String)
    (writeF : String → String → Option String)
    (deleteF : String → Option String) (tr : List Ev) (m : String)
    (h : apply_patch fuel text readF writeF deleteF = (tr, .error (.diff m))) :
    tr = [] := by
  unfold apply_patch at h
  split at h
  · exact (congrArg Prod.fst h).symm
  · split at h
    · exact (congrArg Prod.fst h).symm
    · split at h
      · exact (congrArg Prod.fst h).symm
      · split at h
        · exact (congrArg Prod.fst h).symm
        · split at h
          · exact (congrArg Prod.fst h).symm
          · unfold apply_commit at h
            rename_i changes heq
            have h2 := congrArg Prod.snd h
            simp only at h2
            rcases hr : (applyCommitGo writeF deleteF changes).2 with e3 | v
            · rw [hr] at h2
              simp [Except.map] at h2
              have := applyCommitGo_error_backend writeF deleteF changes e3 hr
              rw [this] at h2
              exact absurd h2.symm (by simp)
            · rw [hr] at h2
              simp [Except.map] at h2

theorem apply_patch_diff_no_mutations_witness : ([] : List Ev) = [] :=
  apply_patch_diff_no_mutations 10 "*** Begin Patch\nx" (fun _ => none)
    (fun p _ => some p) (fun _ => some "") [] "Invalid patch format" rfl

-- ## C4: the rewriter preserves the tail after the last chunk

theorem getUpdatedGo_tail (origLines : List String) (path : String) :
    ∀ (cs : List Chunk) (last : Chunk) (oi : Int) (acc dest : List String),
      getUpdatedGo origLines path oi acc (cs ++ [last]) = .ok dest →
      ∃ pre, dest = pre ++ last.ins_lines ++
        pySliceFrom origLines (last.orig_index + (last.del_lines.length : Int)) := by
  intro cs
  induction cs with
  | nil =>
    intro last oi acc dest h
    rw [List.nil_append] at h
    unfold getUpdatedGo at h
    split at h
    · exact Except.noConfusion h
    · split at h
      · exact Except.noConfusion h
      · unfold getUpdatedGo at h
        refine ⟨acc ++ pySliceGet origLines oi last.orig_index, ?_⟩
        have := (Except.ok.injEq _ _).mp h.symm
        rw [this]
  | cons c cs' ih =>
    intro last oi acc dest h
    rw [List.cons_append] at h
    unfold getUpdatedGo at h
    split at h
    · exact Except.noConfusion h
    · split at h
      · exact Except.noConfusion h
      · exact ih last _ _ dest h

/-- C4: whenever `get_updated_file` accepts an Update action, the output
after the material contributed by the last chunk is exactly the suffix of
the original line vector starting at `last.orig_index + len(last.del_lines)`,
joined with `"\n"` unchanged. -/
theorem get_updated_file_preserves_tail (text : String) (action : PatchAction)
    (path s : String) (cs : List Chunk) (last : Chunk)
    (hch : action.chunks = cs ++ [last])
    (h : get_updated_file text action path = .ok s) :
    ∃ pre, s = joinNl (pre ++ last.ins_lines ++
      pySliceFrom (splitNl text) (last.orig_index + (last.del_lines.length : Int))) := by
  unfold get_updated_file at h
  split at h
  · exact Except.noConfusion h
  · rcases hd : getUpdatedGo (splitNl text) path 0 [] action.chunks with e | dest
    · rw [hd] at h
      exact Except.noConfusion h
    · rw [hd] at h
      replace h : Except.ok (joinNl dest) = Except.ok s := h
      have hs : s = joinNl dest := ((Except.ok.injEq _ _).mp h).symm
      rw [hch] at hd
      obtain ⟨pre, hp⟩ := getUpdatedGo_tail (splitNl text) path cs last 0 [] dest hd
      exact ⟨pre, by rw [hs, hp]⟩

theorem get_updated_file_tail_witness :
    ∃ pre, "a\nX\nc" = joinNl (pre ++ (⟨1, ["b"], ["X"]⟩ : Chunk).ins_lines ++
      pySliceFrom (splitNl "a\nb\nc")
        ((⟨1, ["b"], ["X"]⟩ : Chunk).orig_index +
          (((⟨1, ["b"], ["X"]⟩ : Chunk).del_lines.length : Int)))) :=
  get_updated_file_preserves_tail "a\nb\nc"
    { type := ActionType.update, chunks := [⟨1, ["b"], ["X"]⟩] } "f" "a\nX\nc"
    [] ⟨1, ["b"], ["X"]⟩ rfl rfl

-- ## C6: moves write the new path before deleting the old one

theorem stepChange_delete_mem {writeF : String → String → Option String}
    {deleteF : String → Option String} {q : String} {ch : FileChange}
    {p : String} (h : Ev.delete p ∈ (stepChange writeF deleteF q ch).1) :
    p = q := by
  unfold stepChange at h
  rcases ch with ⟨ty, oc, nc, mp⟩
  cases ty
  · -- add
    simp only at h
    rcases hw : writeF q (nc.getD "") with _ | r <;> rw [hw] at h <;> simp at h
  · -- delete
    simp only at h
    rcases hd : deleteF q with _ | r <;> rw [hd] at h <;> simp_all
  · -- update
    simp only at h
    by_cases hmp : mp.getD "" = ""
    · rw [if_pos hmp] at h
      rcases hw : writeF q (nc.getD "") with _ | r <;> rw [hw] at h <;> simp at h
    · rw [if_neg hmp] at h
      rcases hw : writeF (mp.getD "") (nc.getD "") with _ | r1 <;> rw [hw] at h
      · simp at h
      · rcases hd : deleteF q with _ | r2 <;> rw [hd] at h <;> simp_all

theorem applyCommitGo_cons_trace_err {writeF : String → String → Option String}
    {deleteF : String → Option String} {q : String} {ch : FileChange}
    {rest : List (String × FileChange)} {e : Err}
    (h : (stepChange writeF deleteF q ch).2 = .error e) :
    (applyCommitGo writeF deleteF ((q, ch) :: rest)).1 =
      (stepChange writeF deleteF q ch).1 := by
  have hpair : stepChange writeF deleteF q ch =
      ((stepChange writeF deleteF q ch).1, Except.error e) := by
    rw [← h]
  conv_lhs => rw [applyCommitGo]
  rw [hpair]

theorem applyCommitGo_cons_trace_ok {writeF : String → String → Option String}
    {deleteF : String → Option String} {q : String} {ch : FileChange}
    {rest : List (String × FileChange)} {rs : List String}
    (h : (stepChange writeF deleteF q ch).2 = .ok rs) :
    (applyCommitGo writeF deleteF ((q, ch) :: rest)).1 =
      (stepChange writeF deleteF q ch).1 ++
        (applyCommitGo writeF deleteF rest).1 := by
  have hpair : stepChange writeF deleteF q ch =
      ((stepChange writeF deleteF q ch).1, Except.ok rs) := by
    rw [← h]
  conv_lhs => rw [applyCommitGo]
  rw [hpair]

theorem applyCommitGo_move_write_delete
    (writeF : String → String → Option String)
    (deleteF : String → Option String) (p mp : String) (ch : FileChange)
    (hty : ch.type = ActionType.update)
    (hmp : ch.move_path = some mp) (hne : mp ≠ "") :
    ∀ changes : List (String × FileChange),
      (changes.map Prod.fst).Nodup → (p, ch) ∈ changes →
      Ev.delete p ∈ (applyCommitGo writeF deleteF changes).1 →
      (∃ r, writeF mp (ch.new_content.getD "") = some r) ∧
      ∃ pre suf, (applyCommitGo writeF deleteF changes).1 =
        pre ++ Ev.write mp (ch.new_content.getD "") :: Ev.delete p :: suf := by
  intro changes
  induction changes with
  | nil => intro _ hin; exact absurd hin (List.not_mem_nil _)
  | cons qc rest ih =>
    intro hnd hin hdel
    obtain ⟨q, ch0⟩ := qc
    have hmpD : ch.move_path.getD "" = mp := by rw [hmp]; rfl
    rcases List.mem_cons.mp hin with hhead | htail
    · -- the change in question is the head
      injection hhead with h1 h2
      subst h1
      subst h2
      rcases hw : writeF mp (ch.new_content.getD "") with _ | r1
      · -- write failed: the trace is the lone write event, no delete happens
        have hstep : stepChange writeF deleteF p ch =
            ([Ev.write mp (ch.new_content.getD "")], .error .backendFail) := by
          unfold stepChange
          rw [hty]
          simp only [hmpD, if_neg hne, hw]
        unfold applyCommitGo at hdel
        rw [hstep] at hdel
        simp at hdel
      · rcases hd : deleteF p with _ | r2
        · -- write ok, delete raised: trace is [write, delete], commit stops
          have hstep : stepChange writeF deleteF p ch =
              ([Ev.write mp (ch.new_content.getD ""), Ev.delete p],
                .error .backendFail) := by
            unfold stepChange
            rw [hty]
            simp only [hmpD, if_neg hne, hw, hd]
          unfold applyCommitGo
          rw [hstep]
          exact ⟨⟨r1, rfl⟩, [], [], rfl⟩
        · -- write ok, delete ok
          have hstep : stepChange writeF deleteF p ch =
              ([Ev.write mp (ch.new_content.getD ""), Ev.delete p],
                .ok [r1, r2]) := by
            unfold stepChange
            rw [hty]
            simp only [hmpD, if_neg hne, hw, hd]
          unfold applyCommitGo
          rw [hstep]
          exact ⟨⟨r1, rfl⟩, [], (applyCommitGo writeF deleteF rest).1, rfl⟩
    · -- the change in question is in the tail
      have hqp : q ≠ p := by
        intro hqp
        subst hqp
        have h1 : q ∈ rest.map Prod.fst :=
          List.mem_map.mpr ⟨(q, ch), htail, rfl⟩
        exact (List.nodup_cons.mp hnd).1 h1
      have hndr := (List.nodup_cons.mp hnd).2
      have hmem : Ev.delete p ∉ (stepChange writeF deleteF q ch0).1 :=
        fun hm => hqp (stepChange_delete_mem hm).symm
      rcases hres : (stepChange writeF deleteF q ch0).2 with e | rs
      · rw [applyCommitGo_cons_trace_err hres] at hdel
        exact absurd hdel hmem
      · rw [applyCommitGo_cons_trace_ok hres] at hdel
        rcases List.mem_append.mp hdel with hdel2 | hdel2
        · exact absurd hdel2 hmem
        · obtain ⟨hex, pre, suf, htr⟩ := ih hndr htail hdel2
          refine ⟨hex, (stepChange writeF deleteF q ch0).1 ++ pre, suf, ?_⟩
          rw [applyCommitGo_cons_trace_ok hres, htr, List.append_assoc]

/-- C6: for every Update change carrying a (truthy) `move_path` in a commit
with unique paths, whenever `apply_commit`'s trace contains the
`delete_fn` call on the original path, that call is immediately preceded by
the `write_fn` call on the move path with the new content, and that write
returned without raising. -/
theorem apply_commit_move_write_before_delete
    (changes : List (String × FileChange))
    (writeF : String → String → Option String)
    (deleteF : String → Option String) (p mp : String) (ch : FileChange)
    (hnd : (changes.map Prod.fst).Nodup)
    (hin : (p, ch) ∈ changes)
    (hty : ch.type = ActionType.update)
    (hmp : ch.move_path = some mp) (hne : mp ≠ "")
    (hdel : Ev.delete p ∈ (apply_commit changes writeF deleteF).1) :
    (∃ r, writeF mp (ch.new_content.getD "") = some r) ∧
    ∃ pre suf, (apply_commit changes writeF deleteF).1 =
      pre ++ Ev.write mp (ch.new_content.getD "") :: Ev.delete p :: suf :=
  applyCommitGo_move_write_delete writeF deleteF p mp ch hty hmp hne
    changes hnd hin hdel

/-- The single move-update change used by the C6 witness. -/
def moveChangeW : FileChange :=
  { type := ActionType.update, old_content := some "y",
    new_content := some "x", move_path := some "new.py" }

theorem apply_commit_move_witness :
    (∃ r, (fun p _ => some ("W " ++ p) : String → String → Option String)
        "new.py" (moveChangeW.new_content.getD "") = some r) ∧
    ∃ pre suf,
      (apply_commit [("old.py", moveChangeW)]
        (fun p _ => some ("W " ++ p)) (fun p => some ("D " ++ p))).1 =
      pre ++ Ev.write "new.py" (moveChangeW.new_content.getD "") ::
        Ev.delete "old.py" :: suf :=
  apply_commit_move_write_before_delete [("old.py", moveChangeW)]
    (fun p _ => some ("W " ++ p)) (fun p => some ("D " ++ p))
    "old.py" "new.py" moveChangeW
    (by decide) (by decide) rfl rfl (by decide) (by decide)

-- ## C8: missing `*** End Patch`

theorem load_files_ok (readF : String → Option String) :
    ∀ paths : List String, (∀ p ∈ paths, readF p ≠ none) →
      ∃ o, load_files readF paths = .ok o := by
  intro paths
  induction paths with
  | nil => intro _; exact ⟨[], rfl⟩
  | cons p rest ih =>
    intro hall
    rcases hr : readF p with _ | t
    · exact absurd hr (hall p (List.mem_cons_self p rest))
    · obtain ⟨o, ho⟩ := ih (fun q hq => hall q (List.mem_cons_of_mem p hq))
      refine ⟨(p, t) :: o, ?_⟩
      unfold load_files
      rw [hr, ho]
      rfl

theorem checkAddsAbsent_ok (readF : String → Option String) :
    ∀ paths : List String, (∀ p ∈ paths, readF p = none) →
      checkAddsAbsent readF paths = .ok () := by
  intro paths
  induction paths with
  | nil => intro _; rfl
  | cons p rest ih =>
    intro hall
    unfold checkAddsAbsent
    rw [hall p (List.mem_cons_self p rest)]
    exact ih (fun q hq => hall q (List.mem_cons_of_mem p hq))

theorem text_to_patch_invalid_format (fuel : Nat) (text : String)
    (orig : List (String × String))
    (hlast : (splitNl (pyStrip text)).getLastD "" ≠ "*** End Patch") :
    text_to_patch fuel text orig = .error (.diff "Invalid patch format") := by
  unfold text_to_patch
  rw [if_pos]
  exact Or.inr (Or.inr hlast)

/-- C8 (amended): a patch text that begins with `*** Begin Patch\n` but whose
stripped last line is not `*** End Patch` makes `apply_patch` raise a
`DiffError` with no mutations issued; when the snapshot loads and the
add-target check passes, the message is `Invalid patch format` — it is the
format check of `text_to_patch` that fires, not the `Missing End Patch`
branch of `Parser.parse` (which is unreachable through `apply_patch`). -/
theorem apply_patch_missing_end_invalid_format (fuel : Nat) (text : String)
    (readF : String → Option String)
    (writeF : String → String → Option String)
    (deleteF : String → Option String)
    (hstart : pyStartswith text PATCH_BEGIN = true)
    (hlast : (splitNl (pyStrip text)).getLastD "" ≠ "*** End Patch")
    (hreads : ∀ p ∈ identify_files_needed text, readF p ≠ none)
    (hadds : ∀ p ∈ identify_files_added text, readF p = none) :
    apply_patch fuel text readF writeF deleteF =
      ([], .error (.diff "Invalid patch format")) := by
  unfold apply_patch
  rw [if_neg (by rw [hstart]; exact fun hc => hc rfl)]
  obtain ⟨o, ho⟩ := load_files_ok readF (identify_files_needed text) hreads
  simp only [ho, checkAddsAbsent_ok readF (identify_files_added text) hadds,
    text_to_patch_invalid_format fuel text o hlast]

theorem apply_patch_missing_end_witness :
    apply_patch 10 "*** Begin Patch\nfoo" (fun _ => none)
      (fun p _ => some p) (fun _ => some "") =
      ([], .error (.diff "Invalid patch format")) :=
  apply_patch_missing_end_invalid_format 10 "*** Begin Patch\nfoo"
    (fun _ => none) (fun p _ => some p) (fun _ => some "")
    (by decide) (by decide) (by decide) (by decide)

/-- C8 counterexample: on the input `"*** Begin Patch\nx"` (which begins with
the patch marker and whose last non-whitespace line is not `*** End Patch`),
`apply_patch` raises `DiffError` with message `Invalid patch format`, which
does not contain the fragment `Missing End Patch` the claim requires. -/
theorem apply_patch_missing_end_counterexample :
    pyStartswith "*** Begin Patch\nx" PATCH_BEGIN = true ∧
    (splitNl (pyStrip "*** Begin Patch\nx")).getLastD "" ≠ "*** End Patch" ∧
    apply_patch 10 "*** Begin Patch\nx" (fun _ => none)
      (fun p _ => some p) (fun _ => some "") =
      ([], .error (.diff "Invalid patch format")) ∧
    strContains "Invalid patch format" "Missing End Patch" = false :=
  ⟨by decide, by decide, rfl, by decide⟩

-- ## C9: bare update header inside a hunk body

/-- The stub backends used by the concrete C9 runs. -/
def readOneFile (path content : String) : String → Option String :=
  fun p => if p = path then some content else none

def writeStub : String → String → Option String :=
  fun p _ => some ("Wrote " ++ p)

def deleteStub : String → Option String :=
  fun p => some ("Deleted " ++ p)

/-- The concrete patch whose update hunk body contains the line
`*** Update File:` (colon, no path). -/
def c9ColonPatch : String :=
  "*** Begin Patch\n*** Update File: f\n-a\n+X\n*** Update File:\n*** End Patch"

/-- The concrete patch whose update hunk body contains the line
`*** Update File` (no colon), exactly as quoted by the claim. -/
def c9BarePatch : String :=
  "*** Begin Patch\n*** Update File: f\n-a\n+X\n*** Update File\n*** End Patch"

/-- C9 counterexample: the line quoted by the claim, `*** Update File` with
no colon, does not start with the stripped header `*** Update File:`, so the
hunk scanner does not treat it as a section terminator: it raises
`DiffError: Invalid Line` (the line starts with `***`), and through
`apply_patch` the surfaced message is `Invalid Line`, not `Unknown Line`. -/
theorem update_header_bare_counterexample :
    peek_next_section ["-a", "+X", "*** Update File", "*** End Patch"] 0 =
      .error (.diff "Invalid Line: *** Update File") ∧
    apply_patch 50 c9BarePatch (readOneFile "f" "a\nb") writeStub deleteStub =
      ([], .error (.diff "Invalid Line: *** Update File")) ∧
    strContains "Invalid Line: *** Update File" "Unknown Line" = false :=
  ⟨rfl, rfl, by decide⟩

/-- C9 (amended): the described behavior holds for the line
`*** Update File:` — with the colon but no path and no trailing space.  The
hunk scanner stops at it without consuming it (the returned cursor is the
line's own index and the scan yields the chunks read so far), and
`Parser.parse` then fails on that line with `Unknown Line`; the colon-less
line `*** Update File` instead raises `Invalid Line` inside the scanner. -/
theorem update_header_no_path_terminator :
    peek_next_section ["-a", "+X", "*** Update File:", "*** End Patch"] 0 =
      .ok (["a"], [⟨0, ["a"], ["X"]⟩], 2, false) ∧
    apply_patch 50 c9ColonPatch (readOneFile "f" "a\nb") writeStub deleteStub =
      ([], .error (.diff "Unknown Line: *** Update File:")) :=
  ⟨rfl, rfl⟩

-- ## C10: a defline matching nothing is silently skipped

theorem seekDefline_no_match (fileLines : List String) (fIdx : Int)
    (d : String)
    (hex : ∀ i ∈ intRange fIdx (fileLines.length : Int),
      canon (pyIndexD fileLines i) ≠ canon d)
    (htr : ∀ i ∈ intRange fIdx (fileLines.length : Int),
      canon (pyStrip (pyIndexD fileLines i)) ≠ canon (pyStrip d)) :
    seekDefline fileLines fIdx d = (fIdx, 0) := by
  unfold seekDefline
  rw [List.find?_eq_none.mpr (by intro i hi; simpa using hex i hi),
    List.find?_eq_none.mpr (by intro i hi; simpa using htr i hi)]

/-- C10: when a hunk's `@@ defline` matches no line of the original file
from the cursor onward (neither exactly nor trimmed, canonically), the
parser raises no error, leaves the per-file cursor and the fuzz counter
unchanged, and the iteration proceeds directly to locating the hunk context
from that unchanged cursor. -/
theorem defline_no_match_keeps_cursor (lines fileLines : List String)
    (pIdx : Nat) (fIdx : Int) (fuzz : Nat) (chunks : List Chunk) (d : String)
    (hline : lines.getD pIdx "" = "@@ " ++ d) (hlt : pIdx < lines.length)
    (hstrip : pyStrip d ≠ "")
    (hex : ∀ i ∈ intRange fIdx (fileLines.length : Int),
      canon (pyIndexD fileLines i) ≠ canon d)
    (htr : ∀ i ∈ intRange fIdx (fileLines.length : Int),
      canon (pyStrip (pyIndexD fileLines i)) ≠ canon (pyStrip d)) :
    seekDefline fileLines fIdx d = (fIdx, 0) ∧
    updateStep lines fileLines pIdx fIdx fuzz chunks =
      locateAndExtend lines fileLines (pIdx + 1) fIdx fuzz chunks := by
  have hseek := seekDefline_no_match fileLines fIdx d hex htr
  refine ⟨hseek, ?_⟩
  have hd : d ≠ "" := by
    intro hc
    rw [hc] at hstrip
    exact hstrip rfl
  have hpre : pyStartswith ("@@ " ++ d) "@@ " = true := by
    unfold pyStartswith
    show "@@ ".data.isPrefixOf ("@@ ".data ++ d.data) = true
    exact List.isPrefixOf_iff_prefix.mpr (List.prefix_append _ _)
  have hdrop : dropChars "@@ ".data.length ("@@ " ++ d) = d := by
    unfold dropChars
    show String.mk (("@@ ".data ++ d.data).drop "@@ ".data.length) = d
    rw [List.drop_left]
  have hread : read_str lines pIdx "@@ " = .ok (d, pIdx + 1) := by
    unfold read_str
    rw [if_neg (by omega), hline, if_pos hpre, hdrop]
  unfold updateStep
  rw [hread]
  show (if d = "" ∧ pIdx + 1 < lines.length ∧ lines.getD (pIdx + 1) "" = "@@"
      then locateAfterDefline lines fileLines d (pIdx + 1 + 1) fIdx fuzz chunks
      else if d = "" ∧ fIdx ≠ 0
      then Except.error (.diff ("Invalid Line:\n" ++ lines.getD (pIdx + 1) ""))
      else locateAfterDefline lines fileLines d (pIdx + 1) fIdx fuzz chunks) = _
  rw [if_neg (fun hc => hd hc.1), if_neg (fun hc => hd hc.1)]
  unfold locateAfterDefline
  rw [if_pos hstrip, hseek]
  rfl

-- ## C3: cursor monotonicity and bounds of parsed Update chunks

/-- The ordering relation of the monotonicity claim. -/
abbrev chunkMono (a b : Chunk) : Prop := a.orig_index ≤ b.orig_index

theorem flushChunk_inv (old delAcc insAcc : List String) (chunks : List Chunk)
    (hdel : delAcc.length ≤ old.length)
    (hch : ∀ ch ∈ chunks, 0 ≤ ch.orig_index ∧
      ch.orig_index + (ch.del_lines.length : Int) ≤
        (old.length : Int) - (delAcc.length : Int))
    (hchain : List.Chain' chunkMono chunks) :
    (∀ ch ∈ flushChunk old delAcc insAcc chunks, 0 ≤ ch.orig_index ∧
      ch.orig_index + (ch.del_lines.length : Int) ≤ (old.length : Int)) ∧
    List.Chain' chunkMono (flushChunk old delAcc insAcc chunks) := by
  unfold flushChunk
  split
  · constructor
    · intro ch hm
      rcases List.mem_append.mp hm with hm2 | hm2
      · have := hch ch hm2
        omega
      · simp at hm2
        subst hm2
        constructor
        · show (0 : Int) ≤ (old.length : Int) - (delAcc.length : Int)
          omega
        · show (old.length : Int) - (delAcc.length : Int) +
            (delAcc.length : Int) ≤ (old.length : Int)
          omega
    · refine List.Chain'.append hchain (List.chain'_singleton _) ?_
      intro x hx y hy
      simp at hy
      subst hy
      have := hch x (List.mem_of_mem_getLast? hx)
      show x.orig_index ≤ (old.length : Int) - (delAcc.length : Int)
      omega
  · exact ⟨fun ch hm => by have := hch ch hm; omega, hchain⟩

theorem peekLoop_inv :
    ∀ (rest : List String) (idx : Nat) (old delAcc insAcc : List String)
      (chunks : List Chunk) (mode : PMode) (o : List String) (cs : List Chunk)
      (i2 : Nat) (eof : Bool),
      peekLoop rest idx old delAcc insAcc chunks mode = .ok (o, cs, i2, eof) →
      delAcc.length ≤ old.length →
      (∀ ch ∈ chunks, 0 ≤ ch.orig_index ∧
        ch.orig_index + (ch.del_lines.length : Int) ≤
          (old.length : Int) - (delAcc.length : Int)) →
      List.Chain' chunkMono chunks →
      (∀ ch ∈ cs, 0 ≤ ch.orig_index ∧
        ch.orig_index + (ch.del_lines.length : Int) ≤ (o.length : Int)) ∧
      List.Chain' chunkMono cs := by
  intro rest
  induction rest with
  | nil =>
    intro idx old delAcc insAcc chunks mode o cs i2 eof h hdel hch hchain
    unfold peekLoop peekFinish at h
    rw [if_neg (by simp)] at h
    injection h with h1
    simp only [Prod.mk.injEq] at h1
    obtain ⟨rfl, rfl, rfl, rfl⟩ := h1
    exact flushChunk_inv old delAcc insAcc chunks hdel hch hchain
  | cons s rest' ih =>
    intro idx old delAcc insAcc chunks mode o cs i2 eof h hdel hch hchain
    unfold peekLoop at h
    split at h
    · -- terminator line
      unfold peekFinish at h
      split at h <;>
        (injection h with h1
         simp only [Prod.mk.injEq] at h1
         obtain ⟨rfl, rfl, rfl, rfl⟩ := h1
         exact flushChunk_inv old delAcc insAcc chunks hdel hch hchain)
    · split at h
      · exact Except.noConfusion h
      · -- regular hunk line: case on the classified mode
        split at h
        · -- delete line
          refine ih (idx + 1) (old ++ [peekPayload s])
            (delAcc ++ [peekPayload s]) insAcc chunks .mdel o cs i2 eof h
            ?_ ?_ hchain
          · simp
            omega
          · intro ch hm
            have := hch ch hm
            simp only [List.length_append, List.length_singleton]
            constructor
            · omega
            · push_cast
              push_cast at this
              omega
        · -- add line
          exact ih (idx + 1) old delAcc (insAcc ++ [peekPayload s]) chunks
            .madd o cs i2 eof h hdel hch hchain
        · -- keep line
          split at h
          · -- mode returned to keep: flush
            have hf := flushChunk_inv old delAcc insAcc chunks hdel hch hchain
            refine ih (idx + 1) (old ++ [peekPayload s]) [] []
              (flushChunk old delAcc insAcc chunks) .mkeep o cs i2 eof h
              (by simp) ?_ hf.2
            intro ch hm
            have := hf.1 ch hm
            simp only [List.length_append, List.length_singleton,
              List.length_nil]
            push_cast
            push_cast at this
            omega
          · -- still keep
            refine ih (idx + 1) (old ++ [peekPayload s]) delAcc insAcc chunks
              .mkeep o cs i2 eof h ?_ ?_ hchain
            · simp
              omega
            · intro ch hm
              have := hch ch hm
              simp only [List.length_append, List.length_singleton]
              push_cast
              push_cast at this
              omega

theorem peekLoop_eof_mem :
    ∀ (rest : List String) (idx : Nat) (old delAcc insAcc : List String)
      (chunks : List Chunk) (mode : PMode) (o : List String) (cs : List Chunk)
      (i2 : Nat),
      peekLoop rest idx old delAcc insAcc chunks mode = .ok (o, cs, i2, true) →
      END_OF_FILE_MARKER ∈ rest := by
  intro rest
  induction rest with
  | nil =>
    intro idx old delAcc insAcc chunks mode o cs i2 h
    unfold peekLoop peekFinish at h
    rw [if_neg (by simp)] at h
    injection h with h1
    simp only [Prod.mk.injEq] at h1
    exact absurd h1.2.2.2 Bool.false_ne_true
  | cons s rest' ih =>
    intro idx old delAcc insAcc chunks mode o cs i2 h
    unfold peekLoop at h
    split at h
    · unfold peekFinish at h
      split at h
      · rename_i heq
        have hs : s = END_OF_FILE_MARKER := by injection heq
        rw [hs]
        exact List.mem_cons_self _ _
      · injection h with h1
        simp only [Prod.mk.injEq] at h1
        exact absurd h1.2.2.2 Bool.false_ne_true
    · split at h
      · exact Except.noConfusion h
      · split at h
        · exact List.mem_cons_of_mem s (ih _ _ _ _ _ _ _ _ _ h)
        · exact List.mem_cons_of_mem s (ih _ _ _ _ _ _ _ _ _ h)
        · split at h
          · exact List.mem_cons_of_mem s (ih _ _ _ _ _ _ _ _ _ h)
          · exact List.mem_cons_of_mem s (ih _ _ _ _ _ _ _ _ _ h)

theorem peek_next_section_inv (lines : List String) (i : Nat)
    (o : List String) (cs : List Chunk) (i2 : Nat) (eof : Bool)
    (h : peek_next_section lines i = .ok (o, cs, i2, eof)) :
    (∀ ch ∈ cs, 0 ≤ ch.orig_index ∧
      ch.orig_index + (ch.del_lines.length : Int) ≤ (o.length : Int)) ∧
    List.Chain' chunkMono cs :=
  peekLoop_inv (lines.drop i) i [] [] [] [] .mkeep o cs i2 eof h
    (by simp) (by simp) (by simp)

theorem peek_next_section_eof_mem (lines : List String) (i : Nat)
    (o : List String) (cs : List Chunk) (i2 : Nat)
    (h : peek_next_section lines i = .ok (o, cs, i2, true)) :
    END_OF_FILE_MARKER ∈ lines :=
  List.mem_of_mem_drop (peekLoop_eof_mem (lines.drop i) i [] [] [] [] .mkeep
    o cs i2 h)

theorem seekDefline_bounds (fileLines : List String) (fIdx : Int) (d : String)
    (h0 : 0 ≤ fIdx) (hL : fIdx ≤ (fileLines.length : Int)) :
    fIdx ≤ (seekDefline fileLines fIdx d).1 ∧
    (seekDefline fileLines fIdx d).1 ≤ (fileLines.length : Int) := by
  unfold seekDefline
  rcases h1 : (intRange fIdx (fileLines.length : Int)).find?
      (fun i => canon (pyIndexD fileLines i) = canon d) with _ | i
  · rcases h2 : (intRange fIdx (fileLines.length : Int)).find?
        (fun i => canon (pyStrip (pyIndexD fileLines i)) =
          canon (pyStrip d)) with _ | j
    · simp only
      omega
    · have := intRange_mem (List.mem_of_find?_eq_some h2)
      simp only
      omega
  · have := intRange_mem (List.mem_of_find?_eq_some h1)
    simp only
    omega

theorem extendWithSection_inv (fileLines ctx : List String)
    (secChunks : List Chunk) (endIdx : Nat) (fIdx : Int) (fuzz : Nat)
    (chunks : List Chunk) (pIdx' : Nat) (fIdx' : Int) (fuzz' : Nat)
    (chunks' : List Chunk)
    (h : extendWithSection fileLines ctx secChunks endIdx false fIdx fuzz
      chunks = .ok (pIdx', fIdx', fuzz', chunks'))
    (h0 : 0 ≤ fIdx) (hL : fIdx ≤ (fileLines.length : Int))
    (hsec : ∀ ch ∈ secChunks, 0 ≤ ch.orig_index ∧
      ch.orig_index + (ch.del_lines.length : Int) ≤ (ctx.length : Int))
    (hsecchain : List.Chain' chunkMono secChunks)
    (hch : ∀ ch ∈ chunks, 0 ≤ ch.orig_index ∧
      ch.orig_index + (ch.del_lines.length : Int) ≤ fIdx)
    (hchain : List.Chain' chunkMono chunks) :
    0 ≤ fIdx' ∧ fIdx' ≤ (fileLines.length : Int) ∧
    (∀ ch ∈ chunks', 0 ≤ ch.orig_index ∧
      ch.orig_index + (ch.del_lines.length : Int) ≤ fIdx') ∧
    List.Chain' chunkMono chunks' := by
  have hfc : find_context fileLines ctx fIdx false =
      find_context_core fileLines ctx fIdx := rfl
  unfold extendWithSection at h
  rw [hfc] at h
  split at h
  · exact Except.noConfusion h
  · rename_i hne
    rcases hcore : find_context_core fileLines ctx fIdx with ⟨newIdx, f2⟩
    rw [hcore] at h hne
    simp only at hne
    rcases find_context_core_bounds hL hcore with hminus | hbounds
    · exact absurd hminus hne
    · injection h with h1
      simp only [Prod.mk.injEq] at h1
      obtain ⟨rfl, rfl, rfl, rfl⟩ := h1
      have hstart : fIdx ≤ newIdx := hbounds.1
      have hend : newIdx + (ctx.length : Int) ≤ (fileLines.length : Int) :=
        hbounds.2
      refine ⟨by omega, hend, ?_, ?_⟩
      · intro ch hm
        rcases List.mem_append.mp hm with hm2 | hm2
        · have := hch ch hm2
          have hc0 : (0 : Int) ≤ (ctx.length : Int) := by positivity
          constructor
          · omega
          · omega
        · obtain ⟨c0, hc0m, rfl⟩ := List.mem_map.mp hm2
          have := hsec c0 hc0m
          constructor
          · show (0 : Int) ≤ c0.orig_index + newIdx
            omega
          · show c0.orig_index + newIdx + (c0.del_lines.length : Int) ≤
              newIdx + (ctx.length : Int)
            omega
      · refine List.Chain'.append hchain ?_ ?_
        · refine (List.chain'_map _).mpr ?_
          refine hsecchain.imp ?_
          intro a b hab
          show a.orig_index + newIdx ≤ b.orig_index + newIdx
          exact add_le_add_right hab newIdx
        · intro x hx y hy
          have hxm := List.mem_of_mem_getLast? hx
          have hym := List.mem_of_mem_head? hy
          obtain ⟨c0, hc0m, rfl⟩ := List.mem_map.mp hym
          have h1 := hch x hxm
          have h2 := hsec c0 hc0m
          show x.orig_index ≤ c0.orig_index + newIdx
          omega

theorem locateAndExtend_inv (lines fileLines : List String) (i2 : Nat)
    (s : Int) (fuzz : Nat) (chunks : List Chunk) (pIdx' : Nat) (fIdx' : Int)
    (fuzz' : Nat) (chunks' : List Chunk)
    (hnoeof : END_OF_FILE_MARKER ∉ lines)
    (h : locateAndExtend lines fileLines i2 s fuzz chunks =
      .ok (pIdx', fIdx', fuzz', chunks'))
    (h0 : 0 ≤ s) (hL : s ≤ (fileLines.length : Int))
    (hch : ∀ ch ∈ chunks, 0 ≤ ch.orig_index ∧
      ch.orig_index + (ch.del_lines.length : Int) ≤ s)
    (hchain : List.Chain' chunkMono chunks) :
    0 ≤ fIdx' ∧ fIdx' ≤ (fileLines.length : Int) ∧
    (∀ ch ∈ chunks', 0 ≤ ch.orig_index ∧
      ch.orig_index + (ch.del_lines.length : Int) ≤ fIdx') ∧
    List.Chain' chunkMono chunks' := by
  unfold locateAndExtend at h
  rcases hp : peek_next_section lines i2 with e | sec
  · rw [hp] at h
    exact Except.noConfusion h
  · rw [hp] at h
    obtain ⟨ctx, secChunks, endIdx, eof⟩ := sec
    cases eof
    · have hinv := peek_next_section_inv lines i2 ctx secChunks endIdx false hp
      exact extendWithSection_inv fileLines ctx secChunks endIdx s fuzz
        chunks pIdx' fIdx' fuzz' chunks' h h0 hL hinv.1 hinv.2 hch hchain
    · exact absurd (peek_next_section_eof_mem lines i2 ctx secChunks endIdx hp)
        hnoeof

theorem locateAfterDefline_inv (lines fileLines : List String)
    (defStr : String) (i2 : Nat) (fIdx : Int) (fuzz : Nat)
    (chunks : List Chunk) (pIdx' : Nat) (fIdx' : Int) (fuzz' : Nat)
    (chunks' : List Chunk)
    (hnoeof : END_OF_FILE_MARKER ∉ lines)
    (h : locateAfterDefline lines fileLines defStr i2 fIdx fuzz chunks =
      .ok (pIdx', fIdx', fuzz', chunks'))
    (h0 : 0 ≤ fIdx) (hL : fIdx ≤ (fileLines.length : Int))
    (hch : ∀ ch ∈ chunks, 0 ≤ ch.orig_index ∧
      ch.orig_index + (ch.del_lines.length : Int) ≤ fIdx)
    (hchain : List.Chain' chunkMono chunks) :
    0 ≤ fIdx' ∧ fIdx' ≤ (fileLines.length : Int) ∧
    (∀ ch ∈ chunks', 0 ≤ ch.orig_index ∧
      ch.orig_index + (ch.del_lines.length : Int) ≤ fIdx') ∧
    List.Chain' chunkMono chunks' := by
  unfold locateAfterDefline at h
  split at h
  · have hb := seekDefline_bounds fileLines fIdx defStr h0 hL
    exact locateAndExtend_inv lines fileLines i2 _ _ chunks pIdx' fIdx'
      fuzz' chunks' hnoeof h (by omega) hb.2
      (fun ch hm => ⟨(hch ch hm).1, le_trans (hch ch hm).2 hb.1⟩) hchain
  · exact locateAndExtend_inv lines fileLines i2 fIdx fuzz chunks pIdx' fIdx'
      fuzz' chunks' hnoeof h h0 hL hch hchain

theorem updateStep_inv (lines fileLines : List String) (pIdx : Nat)
    (fIdx : Int) (fuzz : Nat) (chunks : List Chunk) (pIdx' : Nat)
    (fIdx' : Int) (fuzz' : Nat) (chunks' : List Chunk)
    (hnoeof : END_OF_FILE_MARKER ∉ lines)
    (h : updateStep lines fileLines pIdx fIdx fuzz chunks =
      .ok (pIdx', fIdx', fuzz', chunks'))
    (h0 : 0 ≤ fIdx) (hL : fIdx ≤ (fileLines.length : Int))
    (hch : ∀ ch ∈ chunks, 0 ≤ ch.orig_index ∧
      ch.orig_index + (ch.del_lines.length : Int) ≤ fIdx)
    (hchain : List.Chain' chunkMono chunks) :
    0 ≤ fIdx' ∧ fIdx' ≤ (fileLines.length : Int) ∧
    (∀ ch ∈ chunks', 0 ≤ ch.orig_index ∧
      ch.orig_index + (ch.del_lines.length : Int) ≤ fIdx') ∧
    List.Chain' chunkMono chunks' := by
  unfold updateStep at h
  rcases hr : read_str lines pIdx "@@ " with e | r1
  · rw [hr] at h
    exact Except.noConfusion h
  · rw [hr] at h
    replace h :
        (if r1.1 = "" ∧ r1.2 < lines.length ∧ lines.getD r1.2 "" = "@@" then
          locateAfterDefline lines fileLines r1.1 (r1.2 + 1) fIdx fuzz chunks
        else if r1.1 = "" ∧ fIdx ≠ 0 then
          Except.error (.diff ("Invalid Line:\n" ++ lines.getD r1.2 ""))
        else
          locateAfterDefline lines fileLines r1.1 r1.2 fIdx fuzz chunks) =
        Except.ok (pIdx', fIdx', fuzz', chunks') := h
    split at h
    · exact locateAfterDefline_inv lines fileLines r1.1 (r1.2 + 1) fIdx fuzz
        chunks pIdx' fIdx' fuzz' chunks' hnoeof h h0 hL hch hchain
    · split at h
      · exact Except.noConfusion h
      · exact locateAfterDefline_inv lines fileLines r1.1 r1.2 fIdx fuzz
          chunks pIdx' fIdx' fuzz' chunks' hnoeof h h0 hL hch hchain

theorem parseUpdateLoop_inv :
    ∀ (fuel : Nat) (lines fileLines : List String) (pIdx : Nat) (fIdx : Int)
      (fuzz : Nat) (chunks cs : List Chunk) (fz pI : Nat),
      END_OF_FILE_MARKER ∉ lines →
      parseUpdateLoop fuel lines fileLines pIdx fIdx fuzz chunks =
        .ok (cs, fz, pI) →
      0 ≤ fIdx → fIdx ≤ (fileLines.length : Int) →
      (∀ ch ∈ chunks, 0 ≤ ch.orig_index ∧
        ch.orig_index + (ch.del_lines.length : Int) ≤ fIdx) →
      List.Chain' chunkMono chunks →
      (∀ ch ∈ cs, 0 ≤ ch.orig_index ∧
        ch.orig_index + (ch.del_lines.length : Int) ≤
          (fileLines.length : Int)) ∧
      List.Chain' chunkMono cs := by
  intro fuel
  induction fuel with
  | zero =>
    intro lines fileLines pIdx fIdx fuzz chunks cs fz pI hnoeof h h0 hL hch
      hchain
    unfold parseUpdateLoop at h
    split at h
    · injection h with h1
      simp only [Prod.mk.injEq] at h1
      obtain ⟨rfl, rfl, rfl⟩ := h1
      exact ⟨fun ch hm => ⟨(hch ch hm).1, le_trans (hch ch hm).2 hL⟩, hchain⟩
    · exact Except.noConfusion h
  | succ n ih =>
    intro lines fileLines pIdx fIdx fuzz chunks cs fz pI hnoeof h h0 hL hch
      hchain
    unfold parseUpdateLoop at h
    split at h
    · injection h with h1
      simp only [Prod.mk.injEq] at h1
      obtain ⟨rfl, rfl, rfl⟩ := h1
      exact ⟨fun ch hm => ⟨(hch ch hm).1, le_trans (hch ch hm).2 hL⟩, hchain⟩
    · rcases hs : updateStep lines fileLines pIdx fIdx fuzz chunks with e | st
      · rw [hs] at h
        exact Except.noConfusion h
      · rw [hs] at h
        obtain ⟨pIdx2, fIdx2, fuzz2, chunks2⟩ := st
        obtain ⟨h0', hL', hch', hchain'⟩ := updateStep_inv lines fileLines
          pIdx fIdx fuzz chunks pIdx2 fIdx2 fuzz2 chunks2 hnoeof hs h0 hL hch
          hchain
        exact ih lines fileLines pIdx2 fIdx2 fuzz2 chunks2 cs fz pI hnoeof h
          h0' hL' hch' hchain'

/-- The patch-line chunk of the C3 counterexample: a first hunk that edits
near the end of the file, then an EOF-anchored second hunk whose context is
the file's tail, which the pinned EOF search locates *before* the cursor. -/
def c3CexLines : List String :=
  [" a", " b", " c", " d", "-e", "+E", "@@", "-d", "+Z", " e",
    "*** End of File", "*** End Patch"]

def c3CexFile : List String := ["a", "b", "c", "d", "e"]

/-- C3 counterexample: `parse_update_file` succeeds on this EOF-anchored
patch with rebased `orig_index` values `[4, 3]` — strictly decreasing, so
the monotonicity part of the claim fails (the EOF-pinned locator may place
a later hunk before the cursor). -/
theorem parse_update_eof_not_monotone :
    (parse_update_file 30 c3CexLines c3CexFile 0 0).toOption.map
        (fun x => x.1.chunks) =
      some [⟨4, ["e"], ["E"]⟩, ⟨3, ["d"], ["Z"]⟩] ∧
    ¬ List.Chain' chunkMono
        [(⟨4, ["e"], ["E"]⟩ : Chunk), ⟨3, ["d"], ["Z"]⟩] :=
  ⟨rfl, fun hc => by
    have h43 : ((4 : Int) ≤ 3) := (List.chain'_cons.mp hc).1
    omega⟩

/-- C3 (amended): for every Update whose section lines contain no
`*** End of File` anchor, a successful `parse_update_file` returns chunks
whose rebased `orig_index` values are non-negative and non-decreasing in
list order, with `orig_index + len(del_lines) ≤ len(original_lines)` for
every chunk.  (With an EOF anchor the pinned search can move the match
before the cursor, see the counterexample.) -/
theorem parse_update_file_monotone_no_eof (fuel : Nat)
    (lines fileLines : List String) (pIdx : Nat) (fuzz : Nat)
    (action : PatchAction) (fz pI : Nat)
    (hnoeof : END_OF_FILE_MARKER ∉ lines)
    (h : parse_update_file fuel lines fileLines pIdx fuzz =
      .ok (action, fz, pI)) :
    List.Chain' chunkMono action.chunks ∧
    ∀ ch ∈ action.chunks, 0 ≤ ch.orig_index ∧
      ch.orig_index + (ch.del_lines.length : Int) ≤
        (fileLines.length : Int) := by
  unfold parse_update_file at h
  rcases hl : parseUpdateLoop fuel lines fileLines pIdx 0 fuzz [] with e | res
  · rw [hl] at h
    exact Except.noConfusion h
  · rw [hl] at h
    obtain ⟨cs, fz2, pI2⟩ := res
    replace h : Except.ok
        (({ type := ActionType.update, chunks := cs } : PatchAction), fz2, pI2) =
        Except.ok (action, fz, pI) := h
    injection h with h1
    simp only [Prod.mk.injEq] at h1
    obtain ⟨rfl, rfl, rfl⟩ := h1
    have := parseUpdateLoop_inv fuel lines fileLines pIdx 0 fuzz [] cs fz2 pI2
      hnoeof hl le_rfl (by positivity) (by simp) (by simp)
    exact ⟨this.2, this.1⟩

theorem parse_update_file_monotone_witness :
    (END_OF_FILE_MARKER ∉ (["-a", "+X", "*** End Patch"] : List String)) ∧
    (List.Chain' chunkMono
        ({ type := ActionType.update, chunks := [⟨0, ["a"], ["X"]⟩] } :
          PatchAction).chunks ∧
      ∀ ch ∈ ({ type := ActionType.update, chunks := [⟨0, ["a"], ["X"]⟩] } :
          PatchAction).chunks, 0 ≤ ch.orig_index ∧
        ch.orig_index + (ch.del_lines.length : Int) ≤
          (((["a", "b"] : List String)).length : Int)) :=
  ⟨by decide,
    parse_update_file_monotone_no_eof 10 ["-a", "+X", "*** End Patch"]
      ["a", "b"] 0 0
      { type := ActionType.update, chunks := [⟨0, ["a"], ["X"]⟩] } 0 2
      (by decide) rfl⟩

theorem defline_no_match_witness :
    seekDefline ["x"] 0 "y" = (0, 0) ∧
    updateStep ["@@ y", " x", "*** End Patch"] ["x"] 0 0 0 [] =
      locateAndExtend ["@@ y", " x", "*** End Patch"] ["x"] (0 + 1) 0 0 [] :=
  defline_no_match_keeps_cursor ["@@ y", " x", "*** End Patch"] ["x"] 0 0 0
    [] "y" (by decide) (by decide) (by decide) (by decide) (by decide)
